import Mathlib

/-!
Verification of the projection (dimensional-reduction) engine of DIPlib's
`src/math/projection.cpp`.

The C++ code is shallowly embedded: a `dip::Image` is a strided view into a
flat storage, modelled here as a header (`sizes`, `strides`, tensor data,
`origin`) over a total function `data : Int → α`.  Pointer walking in the
source becomes index arithmetic over that header; the odometer loop of
`ProjectionScan` becomes a fuelled recursion (`scanLoop`) over a mixed-radix
position counter.  Sample values are taken in an exact field (`ℚ` for the
generic reducers, `ℝ` for the directional ones), standing in for the
numerically-promoted accumulation types (`FlexType`/`FloatType`).  The
single-value buffered copy/cast between element types (`CopyBuffer`, an
external collaborator) is the identity at the value level and is elided.
-/

namespace dip

/-- Dot product of a position vector against a stride vector, the offset
arithmetic behind `dip__SetOrigin`/`dip__ShiftOrigin` pointer positioning. -/
def dotI : List Nat → List Int → Int
  | i :: p, s :: ss => (i : Int) * s + dotI p ss
  | _, _ => 0

/-- `inBox p ns` holds when `p` is a valid position of an array of sizes `ns`
(componentwise `p[i] < ns[i]`, same length). -/
def inBox : List Nat → List Nat → Bool
  | [], [] => true
  | i :: p, n :: ns => decide (i < n) && inBox p ns
  | _, _ => false

/-- All positions of a box of the given sizes, dimension 0 varying fastest
(the iteration order of `ImageIterator` and of the odometer loop). -/
def allPositions : List Nat → List (List Nat)
  | [] => [[]]
  | n :: ns => (allPositions ns).flatMap (fun ps => (List.range n).map (fun i => i :: ps))

/-- Mixed-radix rank of a position: its index in `allPositions`. -/
def rank : List Nat → List Nat → Nat
  | i :: p, n :: ns => i + n * rank p ns
  | _, _ => 0

/-- Normal strides of a freshly forged image: the tensor dimension has
stride 1, spatial stride 0 is the tensor element count, and each further
stride is the previous stride times the previous size. -/
def stdStrides (s : Int) : List Nat → List Int
  | [] => []
  | n :: ns => s :: stdStrides (s * (n : Int)) ns

theorem length_allPositions (ns : List Nat) : (allPositions ns).length = ns.prod := by
  induction ns with
  | nil => rfl
  | cons n ns ih =>
    simp only [allPositions, List.length_flatMap, List.prod_cons]
    have haux : ∀ l : List (List Nat),
        (List.map (List.length ∘ fun ps => List.map (fun i => i :: ps) (List.range n)) l).sum
          = l.length * n := by
      intro l
      induction l with
      | nil => simp
      | cons a l ihl => simp [ihl, Nat.succ_mul, Nat.add_comm]
    rw [haux, ih, Nat.mul_comm]

theorem inBox_length {p ns : List Nat} (h : inBox p ns) : p.length = ns.length := by
  induction p generalizing ns with
  | nil => cases ns with
    | nil => rfl
    | cons n ns => simp [inBox] at h
  | cons i p ih =>
    cases ns with
    | nil => simp [inBox] at h
    | cons n ns =>
      simp only [inBox, Bool.and_eq_true, decide_eq_true_eq] at h
      simp [ih h.2]

theorem rank_lt_prod {p ns : List Nat} (h : inBox p ns) : rank p ns < ns.prod := by
  induction p generalizing ns with
  | nil =>
    cases ns with
    | nil => simp [rank]
    | cons n ns => simp [inBox] at h
  | cons i p ih =>
    cases ns with
    | nil => simp [inBox] at h
    | cons n ns =>
      simp only [inBox, Bool.and_eq_true, decide_eq_true_eq] at h
      have h2 := ih h.2
      simp only [rank, List.prod_cons]
      calc i + n * rank p ns < n + n * rank p ns := by omega
        _ = n * (rank p ns + 1) := by ring
        _ ≤ n * ns.prod := Nat.mul_le_mul_left n h2

theorem rank_inj {p q ns : List Nat} (hp : inBox p ns) (hq : inBox q ns)
    (h : rank p ns = rank q ns) : p = q := by
  induction ns generalizing p q with
  | nil =>
    cases p with
    | nil => cases q with
      | nil => rfl
      | cons j q => simp [inBox] at hq
    | cons i p => simp [inBox] at hp
  | cons n ns ih =>
    cases p with
    | nil => simp [inBox] at hp
    | cons i p =>
      cases q with
      | nil => simp [inBox] at hq
      | cons j q =>
        simp only [inBox, Bool.and_eq_true, decide_eq_true_eq] at hp hq
        simp only [rank] at h
        have hij : i = j := by
          have h1 : (i + n * rank p ns) % n = (j + n * rank q ns) % n := by rw [h]
          rwa [Nat.add_mul_mod_self_left, Nat.add_mul_mod_self_left,
            Nat.mod_eq_of_lt hp.1, Nat.mod_eq_of_lt hq.1] at h1
        have hr : rank p ns = rank q ns := by
          have hn : 0 < n := lt_of_le_of_lt (Nat.zero_le i) hp.1
          subst hij
          exact Nat.eq_of_mul_eq_mul_left hn (Nat.add_left_cancel h)
        rw [hij, ih hp.2 hq.2 hr]

/-- A `dip::Image`: a strided view into flat storage.  `sizes`/`strides`
describe the spatial dimensions, `tensor`/`tstride` the tensor (channel)
dimension, `origin` the offset of the first sample.  `data` is the backing
storage, a total function on offsets; `forged` mirrors `Image::IsForged()`. -/
structure Image (α : Type) where
  sizes : List Nat
  strides : List Int
  tensor : Nat
  tstride : Int
  origin : Int
  data : Int → α
  forged : Bool

/-- A default-constructed (raw) mask image, as produced by `Image mask;`. -/
def unforgedMask : Image Bool :=
  { sizes := [], strides := [], tensor := 1, tstride := 0, origin := 0,
    data := fun _ => false, forged := false }

/-- `Image::NumberOfPixels()`. -/
def Image.numberOfPixels (img : Image α) : Nat := img.sizes.prod

/-- The sample at spatial position `p` of tensor element `k`. -/
def Image.sampleT (img : Image α) (k : Nat) (p : List Nat) : α :=
  img.data (img.origin + (k : Int) * img.tstride + dotI p img.strides)

/-- The samples visited by `ImageIterator`, dimension 0 fastest. -/
def Image.sampleList (img : Image α) : List α :=
  (allPositions img.sizes).map (fun p => img.data (img.origin + dotI p img.strides))

/-- The samples kept by `JointImageIterator< TPI, bin >` when the mask
sample at the same position is true. -/
def maskedSamples (img : Image α) (m : Image Bool) : List α :=
  (allPositions img.sizes).filterMap (fun p =>
    if m.data (m.origin + dotI p m.strides)
    then some (img.data (img.origin + dotI p img.strides)) else none)

/-- `Image::Squeeze()` on a sizes/strides pair: drop the size-1 dimensions. -/
def squeeze2 : List Nat → List Int → List Nat × List Int
  | n :: ns, s :: ss =>
    let r := squeeze2 ns ss
    if n = 1 then r else (n :: r.1, s :: r.2)
  | _, _ => ([], [])

/-- `Image::Squeeze()`. -/
def Image.squeeze (img : Image α) : Image α :=
  { img with sizes := (squeeze2 img.sizes img.strides).1,
             strides := (squeeze2 img.sizes img.strides).2 }

/-- `Image::TensorToSpatial( 0 )`: the tensor axis becomes spatial dimension 0. -/
def Image.tensorToSpatial0 (img : Image α) : Image α :=
  { img with sizes := img.tensor :: img.sizes, strides := img.tstride :: img.strides,
             tensor := 1 }

/-- Position compaction matching the stride-compaction loop of
`ProjectionScan`: keep the coordinates of dimensions whose (output) size
exceeds 1. -/
def cmpPos : List Nat → List Nat → List Nat
  | n :: ns, i :: p => if 1 < n then i :: cmpPos ns p else cmpPos ns p
  | _, _ => []

/-- Stride compaction: keep the strides of dimensions whose size exceeds 1,
in lockstep for input, mask and output (`ProjectionScan`'s `jj` loop). -/
def cmpStr : List Nat → List Int → List Int
  | n :: ns, s :: ss => if 1 < n then s :: cmpStr ns ss else cmpStr ns ss
  | _, _ => []

/-- Inverse of `cmpPos`: re-insert coordinate 0 at the dropped dimensions. -/
def expandPos : List Nat → List Nat → List Nat
  | n :: ns, c =>
    if 1 < n then
      match c with
      | i :: c' => i :: expandPos ns c'
      | [] => []
    else 0 :: expandPos ns c
  | [], _ => []

theorem dotI_replicate_zero (k : Nat) (ss : List Int) : dotI (List.replicate k 0) ss = 0 := by
  induction k generalizing ss with
  | zero => rfl
  | succ k ih =>
    cases ss with
    | nil => rfl
    | cons s ss => simp [List.replicate_succ, dotI, ih]

theorem inBox_replicate_zero {ns : List Nat} (h : ∀ n ∈ ns, 0 < n) :
    inBox (List.replicate ns.length 0) ns := by
  induction ns with
  | nil => rfl
  | cons n ns ih =>
    simp only [List.length_cons, List.replicate_succ, inBox, Bool.and_eq_true,
      decide_eq_true_eq]
    exact ⟨h n (List.mem_cons_self n ns), ih (fun m hm => h m (List.mem_cons_of_mem n hm))⟩

theorem rank_replicate_zero (ns : List Nat) : rank (List.replicate ns.length 0) ns = 0 := by
  induction ns with
  | nil => rfl
  | cons n ns ih => simp [List.replicate_succ, rank, ih]

theorem dotI_stdStrides {p ns : List Nat} (s : Int) (h : inBox p ns) :
    dotI p (stdStrides s ns) = s * (rank p ns : Int) := by
  induction p generalizing ns s with
  | nil =>
    cases ns with
    | nil => simp [dotI, rank]
    | cons n ns => simp [inBox] at h
  | cons i p ih =>
    cases ns with
    | nil => simp [inBox] at h
    | cons n ns =>
      simp only [inBox, Bool.and_eq_true, decide_eq_true_eq] at h
      simp only [dotI, stdStrides, rank, ih (s * (n : Int)) h.2]
      push_cast
      ring

theorem dotI_cmp {p ns : List Nat} {ss : List Int} (h : inBox p ns)
    (hl : ss.length = ns.length) :
    dotI (cmpPos ns p) (cmpStr ns ss) = dotI p ss := by
  induction ns generalizing p ss with
  | nil =>
    cases p with
    | nil => cases ss with
      | nil => rfl
      | cons s ss => simp at hl
    | cons i p => simp [inBox] at h
  | cons n ns ih =>
    cases p with
    | nil => simp [inBox] at h
    | cons i p =>
      cases ss with
      | nil => simp at hl
      | cons s ss =>
        simp only [inBox, Bool.and_eq_true, decide_eq_true_eq] at h
        simp only [List.length_cons, Nat.add_right_cancel_iff] at hl
        by_cases hn : 1 < n
        · simp [cmpPos, cmpStr, hn, dotI, ih h.2 hl]
        · have hi : i = 0 := by omega
          simp [cmpPos, cmpStr, hn, dotI, ih h.2 hl, hi]

theorem inBox_cmpPos {p ns : List Nat} (h : inBox p ns) :
    inBox (cmpPos ns p) (ns.filter (fun n => decide (1 < n))) := by
  induction ns generalizing p with
  | nil =>
    cases p with
    | nil => rfl
    | cons i p => simp [inBox] at h
  | cons n ns ih =>
    cases p with
    | nil => simp [inBox] at h
    | cons i p =>
      simp only [inBox, Bool.and_eq_true, decide_eq_true_eq] at h
      by_cases hn : 1 < n
      · simpa [cmpPos, List.filter_cons, hn, inBox, h.1] using ih h.2
      · simpa [cmpPos, List.filter_cons, hn] using ih h.2

theorem cmpStr_length {ns : List Nat} {ss : List Int} (hl : ss.length = ns.length) :
    (cmpStr ns ss).length = (ns.filter (fun n => decide (1 < n))).length := by
  induction ns generalizing ss with
  | nil =>
    cases ss with
    | nil => rfl
    | cons s ss => simp at hl
  | cons n ns ih =>
    cases ss with
    | nil => simp at hl
    | cons s ss =>
      simp only [List.length_cons, Nat.add_right_cancel_iff] at hl
      by_cases hn : 1 < n
      · simp [cmpStr, List.filter_cons, hn, ih hl]
      · simp [cmpStr, List.filter_cons, hn, ih hl]

theorem inBox_expandPos {c ns : List Nat} (hsz : ∀ n ∈ ns, 0 < n)
    (h : inBox c (ns.filter (fun n => decide (1 < n)))) : inBox (expandPos ns c) ns := by
  induction ns generalizing c with
  | nil =>
    cases c with
    | nil => rfl
    | cons i c => simp [inBox] at h
  | cons n ns ih =>
    have hn0 : 0 < n := hsz n (List.mem_cons_self n ns)
    have hsz' : ∀ m ∈ ns, 0 < m := fun m hm => hsz m (List.mem_cons_of_mem n hm)
    by_cases hn : 1 < n
    · simp only [List.filter_cons, decide_eq_true_eq, if_pos hn] at h
      cases c with
      | nil => simp [inBox] at h
      | cons i c =>
        simp only [inBox, Bool.and_eq_true, decide_eq_true_eq] at h
        simp [expandPos, hn, inBox, h.1, ih hsz' h.2]
    · simp only [List.filter_cons, decide_eq_true_eq, if_neg hn] at h
      simp [expandPos, hn, inBox, hn0, ih hsz' h]

theorem cmpPos_expandPos {c ns : List Nat}
    (h : inBox c (ns.filter (fun n => decide (1 < n)))) :
    cmpPos ns (expandPos ns c) = c := by
  induction ns generalizing c with
  | nil =>
    cases c with
    | nil => rfl
    | cons i c => simp [inBox] at h
  | cons n ns ih =>
    by_cases hn : 1 < n
    · simp only [List.filter_cons, decide_eq_true_eq, if_pos hn] at h
      cases c with
      | nil => simp [inBox] at h
      | cons i c =>
        simp only [inBox, Bool.and_eq_true, decide_eq_true_eq] at h
        simp [expandPos, hn, cmpPos, ih h.2]
    · simp only [List.filter_cons, decide_eq_true_eq, if_neg hn] at h
      simp [expandPos, hn, cmpPos, ih h]

theorem offsets_squeeze2 :
    ∀ (ns : List Nat) (ss : List Int), ss.length = ns.length →
    (allPositions ns).map (fun p => dotI p ss)
      = (allPositions (squeeze2 ns ss).1).map (fun p => dotI p (squeeze2 ns ss).2) := by
  intro ns
  induction ns with
  | nil =>
    intro ss hl
    cases ss with
    | nil => rfl
    | cons s ss => simp at hl
  | cons n ns ih =>
    intro ss hl
    cases ss with
    | nil => simp at hl
    | cons s ss =>
      simp only [List.length_cons, Nat.add_right_cancel_iff] at hl
      have step : ∀ (ms : List Nat) (ts : List Int),
          (allPositions (n :: ms)).map (fun p => dotI p (s :: ts))
            = ((allPositions ms).map (fun p => dotI p ts)).flatMap
                (fun t => (List.range n).map (fun (i : Nat) => (i : Int) * s + t)) := by
        intro ms ts
        simp only [allPositions]
        rw [List.map_flatMap, List.flatMap_map]
        congr 1
        funext ps
        rw [List.map_map]
        refine List.map_congr_left (fun i _ => ?_)
        simp [Function.comp, dotI]
      by_cases hn : n = 1
      · subst hn
        have hsq : squeeze2 (1 :: ns) (s :: ss) = squeeze2 ns ss := by simp [squeeze2]
        rw [hsq, step, ← ih ss hl]
        have : (fun t => (List.range 1).map (fun (i : Nat) => (i : Int) * s + t))
            = fun t : Int => [t] := by
          funext t
          simp [List.range_succ]
        rw [this]
        simp
      · have hsq : squeeze2 (n :: ns) (s :: ss)
            = (n :: (squeeze2 ns ss).1, s :: (squeeze2 ns ss).2) := by
          simp [squeeze2, hn]
        rw [hsq, step, step, ih ss hl]

/-- One round of the odometer's carry loop (`for( dd = 0; ...; dd++ )` in
`ProjectionScan`): increment the fastest dimension, shift the three views'
origins by their strides; on overflow rewind (undo `size` shifts) and carry
into the next dimension.  Returns the new position together with the net
origin shift of the input, mask and output views; `none` when the carry
runs past the last dimension (`dd == nDims`, iteration finished). -/
def advance : List Nat → List Int → List Int → List Int → List Nat →
    Option (List Nat × Int × Int × Int)
  | n :: ns, si :: sIn, sm :: sM, so :: sOut, i :: pos =>
    if i + 1 ≠ n then
      some ((i + 1) :: pos, si, sm, so)
    else
      match advance ns sIn sM sOut pos with
      | none => none
      | some (pos', di, dm, dv) =>
        some (0 :: pos', si - si * (n : Int) + di, sm - sm * (n : Int) + dm,
              so - so * (n : Int) + dv)
  | _, _, _, _, _ => none

theorem advance_eq_none {ns : List Nat} {sIn sM sOut : List Int} {pos : List Nat}
    (hb : inBox pos ns)
    (h1 : sIn.length = ns.length) (h2 : sM.length = ns.length)
    (h3 : sOut.length = ns.length)
    (h : advance ns sIn sM sOut pos = none) :
    rank pos ns + 1 = ns.prod := by
  induction ns generalizing sIn sM sOut pos with
  | nil =>
    cases pos with
    | nil => simp [rank]
    | cons i pos => simp [inBox] at hb
  | cons n ns ih =>
    cases pos with
    | nil => simp [inBox] at hb
    | cons i pos =>
      cases sIn with
      | nil => simp at h1
      | cons si sIn =>
        cases sM with
        | nil => simp at h2
        | cons sm sM =>
          cases sOut with
          | nil => simp at h3
          | cons so sOut =>
            simp only [inBox, Bool.and_eq_true, decide_eq_true_eq] at hb
            simp only [List.length_cons, Nat.add_right_cancel_iff] at h1 h2 h3
            simp only [advance] at h
            by_cases hc : i + 1 = n
            · rw [if_neg (by omega)] at h
              cases hrec : advance ns sIn sM sOut pos with
              | none =>
                have hrk := ih hb.2 h1 h2 h3 hrec
                have hmul : n * ns.prod = n * rank pos ns + n := by
                  rw [← hrk, Nat.mul_succ]
                simp only [rank, List.prod_cons]
                omega
              | some r => rw [hrec] at h; simp at h
            · rw [if_pos hc] at h
              simp at h

theorem advance_eq_some {ns : List Nat} {sIn sM sOut : List Int} {pos pos' : List Nat}
    {di dm dv : Int}
    (hb : inBox pos ns)
    (h1 : sIn.length = ns.length) (h2 : sM.length = ns.length)
    (h3 : sOut.length = ns.length)
    (h : advance ns sIn sM sOut pos = some (pos', di, dm, dv)) :
    inBox pos' ns ∧ rank pos' ns = rank pos ns + 1
      ∧ dotI pos' sIn = dotI pos sIn + di
      ∧ dotI pos' sM = dotI pos sM + dm
      ∧ dotI pos' sOut = dotI pos sOut + dv := by
  induction ns generalizing sIn sM sOut pos pos' di dm dv with
  | nil =>
    cases pos with
    | nil => simp [advance] at h
    | cons i pos => simp [inBox] at hb
  | cons n ns ih =>
    cases pos with
    | nil => simp [inBox] at hb
    | cons i pos =>
      cases sIn with
      | nil => simp at h1
      | cons si sIn =>
        cases sM with
        | nil => simp at h2
        | cons sm sM =>
          cases sOut with
          | nil => simp at h3
          | cons so sOut =>
            simp only [inBox, Bool.and_eq_true, decide_eq_true_eq] at hb
            simp only [List.length_cons, Nat.add_right_cancel_iff] at h1 h2 h3
            simp only [advance] at h
            by_cases hc : i + 1 = n
            · rw [if_neg (by omega)] at h
              cases hrec : advance ns sIn sM sOut pos with
              | none => rw [hrec] at h; simp at h
              | some r =>
                obtain ⟨pos'', di'', dm'', dv''⟩ := r
                rw [hrec] at h
                simp only [Option.some.injEq, Prod.mk.injEq] at h
                obtain ⟨hpos, hdi, hdm, hdv⟩ := h
                obtain ⟨hb', hr', hi', hm', ho'⟩ := ih hb.2 h1 h2 h3 hrec
                subst hpos hdi hdm hdv
                refine ⟨?_, ?_, ?_, ?_, ?_⟩
                · simp only [inBox, Bool.and_eq_true, decide_eq_true_eq]
                  exact ⟨by omega, hb'⟩
                · simp only [rank]
                  have hmul : n * (rank pos ns + 1) = n * rank pos ns + n :=
                    Nat.mul_succ n (rank pos ns)
                  rw [hr']
                  omega
                · have hcast : (i : Int) = (n : Int) - 1 := by
                    have : (i : Int) + 1 = (n : Int) := by exact_mod_cast hc
                    omega
                  simp only [dotI, hi', hcast]
                  push_cast
                  ring
                · have hcast : (i : Int) = (n : Int) - 1 := by
                    have : (i : Int) + 1 = (n : Int) := by exact_mod_cast hc
                    omega
                  simp only [dotI, hm', hcast]
                  push_cast
                  ring
                · have hcast : (i : Int) = (n : Int) - 1 := by
                    have : (i : Int) + 1 = (n : Int) := by exact_mod_cast hc
                    omega
                  simp only [dotI, ho', hcast]
                  push_cast
                  ring
            · rw [if_pos hc] at h
              simp only [Option.some.injEq, Prod.mk.injEq] at h
              obtain ⟨hpos, hdi, hdm, hdv⟩ := h
              subst hpos hdi hdm hdv
              refine ⟨?_, ?_, ?_, ?_, ?_⟩
              · simp only [inBox, Bool.and_eq_true, decide_eq_true_eq]
                exact ⟨by omega, hb.2⟩
              · simp only [rank]; omega
              · simp only [dotI]; push_cast; ring
              · simp only [dotI]; push_cast; ring
              · simp only [dotI]; push_cast; ring

/-- The odometer iteration of `ProjectionScan`: at each output position call
the projection function on the current input/mask sub-views and write the
result into the output store at the current output origin, then advance.
`tin`/`tm` are the `tempIn`/`tempMask` view templates whose origins are
re-seated each round; the store is the output image's backing storage.
The fuel equals the number of output positions. -/
def scanLoop (f : Image α → Image Bool → α) (tin : Image α) (tm : Image Bool)
    (hasMask : Bool) (cSizes : List Nat) (sIn sM sOut : List Int) :
    Nat → List Nat → Int → Int → Int → (Int → α) → (Int → α)
  | 0, _, _, _, _, st => st
  | fuel + 1, pos, oi, om, oo, st =>
    let st' : Int → α :=
      fun x => if x = oo then f { tin with origin := oi } { tm with origin := om } else st x
    match advance cSizes sIn sM sOut pos with
    | none => st'
    | some (pos', di, dm, dv) =>
      scanLoop f tin tm hasMask cSizes sIn sM sOut fuel pos' (oi + di)
        (if hasMask then om + dm else om) (oo + dv) st'

theorem scanLoop_spec (f : Image α → Image Bool → α) (tin : Image α) (tm : Image Bool)
    (hasMask : Bool) (cSizes : List Nat) (sIn sM sOut : List Int)
    (h1 : sIn.length = cSizes.length) (h2 : sM.length = cSizes.length)
    (h3 : sOut.length = cSizes.length)
    (hinj : ∀ p q, inBox p cSizes → inBox q cSizes → dotI p sOut = dotI q sOut → p = q)
    (bIn bM bOut : Int) :
    ∀ (fuel : Nat) (pos : List Nat) (st : Int → α), inBox pos cSizes →
      fuel + rank pos cSizes = cSizes.prod →
      ∀ q, inBox q cSizes →
        scanLoop f tin tm hasMask cSizes sIn sM sOut fuel pos
            (bIn + dotI pos sIn) (if hasMask then bM + dotI pos sM else bM)
            (bOut + dotI pos sOut) st (bOut + dotI q sOut)
          = if rank pos cSizes ≤ rank q cSizes
            then f { tin with origin := bIn + dotI q sIn }
                   { tm with origin := if hasMask then bM + dotI q sM else bM }
            else st (bOut + dotI q sOut) := by
  intro fuel
  induction fuel with
  | zero =>
    intro pos st hb hf q hq
    have := rank_lt_prod hb
    omega
  | succ fuel ih =>
    intro pos st hb hf q hq
    simp only [scanLoop]
    cases hadv : advance cSizes sIn sM sOut pos with
    | none =>
      have hlast := advance_eq_none hb h1 h2 h3 hadv
      have hqlt := rank_lt_prod hq
      by_cases hle : rank pos cSizes ≤ rank q cSizes
      · have : rank q cSizes = rank pos cSizes := by omega
        have hqp : q = pos := rank_inj hq hb this
        subst hqp
        simp [hle]
      · rw [if_neg hle]
        have hne : q ≠ pos := by
          intro hqp
          subst hqp
          omega
        have : dotI q sOut ≠ dotI pos sOut := by
          intro hd
          exact hne (hinj q pos hq hb hd)
        simp only []
        rw [if_neg (by omega)]
    | some r =>
      obtain ⟨pos', di, dm, dv⟩ := r
      obtain ⟨hb', hr', hi', hm', ho'⟩ := advance_eq_some hb h1 h2 h3 hadv
      have hrec := ih pos'
        (fun x => if x = bOut + dotI pos sOut
          then f { tin with origin := bIn + dotI pos sIn }
                 { tm with origin := if hasMask then bM + dotI pos sM else bM }
          else st x)
        hb' (by omega) q hq
      by_cases hm : hasMask = true
      · simp only [hm, if_true] at hrec ⊢
        rw [show (bIn + dotI pos sIn + di) = bIn + dotI pos' sIn by omega,
          show (bM + dotI pos sM + dm) = bM + dotI pos' sM by omega,
          show (bOut + dotI pos sOut + dv) = bOut + dotI pos' sOut by omega,
          hrec]
        by_cases hle : rank pos cSizes ≤ rank q cSizes
        · by_cases heq : rank q cSizes = rank pos cSizes
          · have hqp : q = pos := rank_inj hq hb heq
            subst hqp
            rw [if_neg (by omega), if_pos hle]
            simp
          · rw [if_pos (by omega), if_pos hle]
        · rw [if_neg (by omega), if_neg hle]
          have hne : q ≠ pos := fun hqp => by subst hqp; omega
          have hd : dotI q sOut ≠ dotI pos sOut := fun hd => hne (hinj q pos hq hb hd)
          rw [if_neg (by omega)]
      · have hm0 : hasMask = false := by
          cases hasMask
          · rfl
          · exact absurd rfl hm
        subst hm0
        simp only [Bool.false_eq_true, if_false] at hrec ⊢
        rw [show (bIn + dotI pos sIn + di) = bIn + dotI pos' sIn by omega,
          show (bOut + dotI pos sOut + dv) = bOut + dotI pos' sOut by omega,
          hrec]
        by_cases hle : rank pos cSizes ≤ rank q cSizes
        · by_cases heq : rank q cSizes = rank pos cSizes
          · have hqp : q = pos := rank_inj hq hb heq
            subst hqp
            rw [if_neg (by omega), if_pos hle]
            simp
          · rw [if_pos (by omega), if_pos hle]
        · rw [if_neg (by omega), if_neg hle]
          have hne : q ≠ pos := fun hqp => by subst hqp; omega
          have hd : dotI q sOut ≠ dotI pos sOut := fun hd => hne (hinj q pos hq hb hd)
          rw [if_neg (by omega)]

/-- Error taxonomy of the validation phase (`DIP_THROW_IF` sites). -/
inductive ProjErr
  | arrayParameterWrongLength
  | maskError
deriving DecidableEq

/-- Modelled from the spec: shape compatibility of a mask against the input
sizes, allowing singleton expansion — after broadcasting its own singleton
dimensions (missing trailing dimensions count as singletons), the mask's
shape must equal the input's shape. -/
def maskCompatible : List Nat → List Nat → Bool
  | [], _ => true
  | m :: ms, n :: ns => (decide (m = n) || decide (m = 1)) && maskCompatible ms ns
  | _ :: _, [] => false

/-- Modelled from the spec: `Image::CheckIsMask` with
`AllowSingletonExpansion::DO_ALLOW` — mask shape validation with optional
singleton-dimension broadcast expansion.  An image that was never forged
carries no pixel data to validate. -/
def checkIsMask (m : Image Bool) (sizes : List Nat) : Bool :=
  !m.forged || maskCompatible m.sizes sizes

/-- Modelled from the spec: the stride table after
`Image::ExpandSingletonDimensions` — expanded singleton (or missing)
dimensions get stride 0, matching dimensions keep their stride. -/
def expandStrides : List Nat → List Int → List Nat → List Int
  | sz :: szs, st :: sts, n :: ns => (if sz = n then st else 0) :: expandStrides szs sts ns
  | _, _, _ :: ns => 0 :: expandStrides [] [] ns
  | _, _, [] => []

/-- Modelled from the spec: `Image::ExpandSingletonDimensions` — broadcast
the mask's singleton dimensions to the given sizes. -/
def expandSingletonDimensions (m : Image Bool) (target : List Nat) : Image Bool :=
  { m with sizes := target, strides := expandStrides m.sizes m.strides target }

/-- The process flags after normalization: an empty array selects every
dimension, then any dimension of size 1 is forced to `false`. -/
def effProcess (process0 : List Bool) (inSizes : List Nat) : List Bool :=
  let p := if process0.isEmpty then List.replicate inSizes.length true else process0
  p.zipWith (fun b n => if n = 1 then false else b) inSizes

/-- The output sizes: collapsed dimensions become 1, others keep the input
size (`outSizes` in `ProjectionScan`). -/
def outSizesOf (process : List Bool) (inSizes : List Nat) : List Nat :=
  process.zipWith (fun b n => if b then 1 else n) inSizes

/-- The processed-block sizes: collapsed dimensions keep the input size,
others become 1 (`procSizes` in `ProjectionScan`). -/
def procSizesOf (process : List Bool) (inSizes : List Nat) : List Nat :=
  process.zipWith (fun b n => if b then n else 1) inSizes

/-- `Image::ReForge`: a freshly allocated output image of the given sizes
and tensor element count, with normal strides (tensor stride 1, dimension 0
stride equal to the tensor element count). -/
def reforge [Inhabited α] (outSizes : List Nat) (t : Nat) : Image α :=
  { sizes := outSizes, strides := stdStrides (t : Int) outSizes, tensor := t,
    tstride := 1, origin := 0, data := fun _ => default, forged := true }

/-- `ProjectionScan` (`src/math/projection.cpp`).  Validates the process
array, checks the mask, computes the output sizes, reforges the output,
moves the tensor axis to spatial dimension 0 when there is more than one
tensor element, and either applies the projection function once (everything
collapses) or drives the odometer loop.  Note: the mask-handling block of
the source copies the default-constructed local `mask`
(`mask = mask.QuickCopy();`), not the caller's `c_mask`, so the local mask
stays unforged; the embedding reproduces that faithfully.  A second slip is
reproduced as well: `nDims` is read before the tensor-to-spatial insertion
(line 43) and never updated afterwards, so when the tensor axis is inserted
the stride/size compaction loop (`for( ii = 0; ii < nDims; ++ii )`, line
167) reads only the first `nDims` entries of the now `nDims + 1`-entry
arrays — the last spatial dimension is dropped from the iteration, hence
the `.take nDims` below (also, `IntegerArray maskStride( nDims )` has only
`nDims` entries in the unmasked case). -/
def ProjectionScan [Inhabited α] (c_in : Image α) (c_mask : Image Bool) (c_out : Image α)
    (process0 : List Bool) (f : Image α → Image Bool → α) : Except ProjErr (Image α) :=
  let inSizes := c_in.sizes
  let nDims := inSizes.length
  if ¬ process0.isEmpty ∧ process0.length ≠ nDims then
    .error .arrayParameterWrongLength
  else
    let input := c_in
    let outTensor := c_in.tensor
    let mask0 : Image Bool := unforgedMask
    if c_mask.forged ∧ ¬ checkIsMask mask0 inSizes then
      .error .maskError
    else
      let mask := if c_mask.forged then expandSingletonDimensions mask0 inSizes else mask0
      let hasMask := c_mask.forged
      let process := effProcess process0 inSizes
      let outSizes := outSizesOf process inSizes
      let procSizes := procSizesOf process inSizes
      if ¬ process.any id then
        .ok c_in
      else
        let output : Image α := reforge outSizes outTensor
        let doT := 1 < outTensor
        let inputT := if doT then input.tensorToSpatial0 else input
        let maskT := if doT ∧ hasMask then mask.tensorToSpatial0 else mask
        let outputT := if doT then output.tensorToSpatial0 else output
        let processT := if doT then false :: process else process
        let outSizesT := if doT then outTensor :: outSizes else outSizes
        let procSizesT := if doT then 1 :: procSizes else procSizes
        if processT.all id then
          let st : Int → α :=
            fun x => if x = outputT.origin then f inputT maskT else output.data x
          .ok { output with data := st }
        else
          let tempIn := Image.squeeze { inputT with sizes := procSizesT }
          let tempMask := if hasMask then Image.squeeze { maskT with sizes := procSizesT }
                          else unforgedMask
          let inStride := inputT.strides
          let maskStride := if hasMask then maskT.strides
                            else List.replicate nDims (0 : Int)
          let outStride := outputT.strides
          let cSizes := (outSizesT.take nDims).filter (fun n => decide (1 < n))
          let cIn := cmpStr (outSizesT.take nDims) (inStride.take nDims)
          let cM := cmpStr (outSizesT.take nDims) (maskStride.take nDims)
          let cOut := cmpStr (outSizesT.take nDims) (outStride.take nDims)
          let st := scanLoop f tempIn tempMask hasMask cSizes cIn cM cOut
            cSizes.prod (List.replicate cSizes.length 0)
            tempIn.origin tempMask.origin outputT.origin output.data
          .ok { output with data := st }

/-- `ProjectionMean< TPI >::Project`: running sum (and count under a mask);
writes `sum / n` when `computeMean_ && n > 0`, the raw sum otherwise. -/
def ProjectionMean (computeMean : Bool) (img : Image ℚ) (m : Image Bool) : ℚ :=
  if m.forged then
    let elems := maskedSamples img m
    let n := elems.length
    let sum := elems.sum
    if computeMean ∧ 0 < n then sum / (n : ℚ) else sum
  else
    let sum := img.sampleList.sum
    let n := img.numberOfPixels
    if computeMean ∧ 0 < n then sum / (n : ℚ) else sum

/-- `ProjectionProduct< TPI >::Project`: running product seeded at 1. -/
def ProjectionProduct (img : Image ℚ) (m : Image Bool) : ℚ :=
  if m.forged then (maskedSamples img m).prod else img.sampleList.prod

/-- `AngleToVector`: the unit vector `(cos v, sin v)` as a complex number. -/
noncomputable def AngleToVector (v : ℝ) : ℂ := ⟨Real.cos v, Real.sin v⟩

/-- `ProjectionMeanDirectional< TPI >::Project`: the four-quadrant angle
(`std::arg`) of the sum of unit vectors. -/
noncomputable def ProjectionMeanDirectional (img : Image ℝ) (m : Image Bool) : ℝ :=
  let sum : ℂ :=
    if m.forged then ((maskedSamples img m).map AngleToVector).sum
    else (img.sampleList.map AngleToVector).sum
  Complex.arg sum

/-- `ProjectionVarianceDirectional< TPI >::Project`: sums unit vectors and
counts participating samples, then takes `R = std::abs( sum )` — the count
`n` is accumulated but never used — and writes `sqrt( -2 log R )` for the
standard deviation or `1 - R` for the variance. -/
noncomputable def ProjectionVarianceDirectional (computeStD : Bool) (img : Image ℝ) (m : Image Bool) : ℝ :=
  let acc : List ℂ × Nat :=
    if m.forged then
      let l := (maskedSamples img m).map AngleToVector
      (l, l.length)
    else
      (img.sampleList.map AngleToVector, img.numberOfPixels)
  let sum : ℂ := acc.1.sum
  let R : ℝ := Complex.abs sum
  if computeStD then Real.sqrt ((-2 : ℝ) * Real.log R) else 1 - R

/-- `ProjectionMaximum< TPI >::Project`: running maximum seeded at
`std::numeric_limits< TPI >::lowest()` (the seed is a parameter because the
numeric limit belongs to the dispatched element type). -/
def ProjectionMaximum (lowest : ℚ) (img : Image ℚ) (m : Image Bool) : ℚ :=
  if m.forged then (maskedSamples img m).foldl max lowest
  else img.sampleList.foldl max lowest

/-- `ProjectionMinimum< TPI >::Project`: running minimum seeded at
`std::numeric_limits< TPI >::max()`. -/
def ProjectionMinimum (highest : ℚ) (img : Image ℚ) (m : Image Bool) : ℚ :=
  if m.forged then (maskedSamples img m).foldl min highest
  else img.sampleList.foldl min highest

/-- `dip::Mean` in the default (non-directional) mode: `ProjectionScan` with
`ProjectionMean( true )`. -/
def Mean (in_ : Image ℚ) (mask : Image Bool) (out : Image ℚ) (process : List Bool) :
    Except ProjErr (Image ℚ) :=
  ProjectionScan in_ mask out process (ProjectionMean true)

/-- `dip::Sum`: `ProjectionScan` with `ProjectionMean( false )`. -/
def Sum (in_ : Image ℚ) (mask : Image Bool) (out : Image ℚ) (process : List Bool) :
    Except ProjErr (Image ℚ) :=
  ProjectionScan in_ mask out process (ProjectionMean false)

/-- `dip::Product`: `ProjectionScan` with `ProjectionProduct`. -/
def Product (in_ : Image ℚ) (mask : Image Bool) (out : Image ℚ) (process : List Bool) :
    Except ProjErr (Image ℚ) :=
  ProjectionScan in_ mask out process ProjectionProduct

/-- `dip::Maximum`: `ProjectionScan` with `ProjectionMaximum`; `lowest` is
the dispatched element type's `std::numeric_limits::lowest()`. -/
def Maximum (lowest : ℚ) (in_ : Image ℚ) (mask : Image Bool) (out : Image ℚ)
    (process : List Bool) : Except ProjErr (Image ℚ) :=
  ProjectionScan in_ mask out process (ProjectionMaximum lowest)

/-- `dip::Minimum`: `ProjectionScan` with `ProjectionMinimum`; `highest` is
the dispatched element type's `std::numeric_limits::max()`. -/
def Minimum (highest : ℚ) (in_ : Image ℚ) (mask : Image Bool) (out : Image ℚ)
    (process : List Bool) : Except ProjErr (Image ℚ) :=
  ProjectionScan in_ mask out process (ProjectionMinimum highest)

/-- `dip::Percentile`: delegates to `Minimum` at percentile 0 and `Maximum`
at percentile 100; the final `else` branch of the source is empty, so any
other percentile leaves `out` exactly as supplied. -/
def Percentile (lowest highest : ℚ) (in_ : Image ℚ) (mask : Image Bool) (out : Image ℚ)
    (percentile : ℚ) (process : List Bool) : Except ProjErr (Image ℚ) :=
  if percentile = 0 then
    Minimum highest in_ mask out process
  else if percentile = 100 then
    Maximum lowest in_ mask out process
  else
    .ok out

theorem stdStrides_length (s : Int) (ns : List Nat) : (stdStrides s ns).length = ns.length := by
  induction ns generalizing s with
  | nil => rfl
  | cons n ns ih => simp [stdStrides, ih]

theorem sampleList_eq_of {a b : Image α} (h1 : a.sizes = b.sizes)
    (h2 : a.strides = b.strides) (h3 : a.origin = b.origin) (h4 : a.data = b.data) :
    a.sampleList = b.sampleList := by
  simp [Image.sampleList, h1, h2, h3, h4]

theorem sampleList_squeeze (img : Image α) (h : img.strides.length = img.sizes.length) :
    (Image.squeeze img).sampleList = img.sampleList := by
  have e1 : ∀ (ns : List Nat) (ss : List Int),
      (allPositions ns).map (fun p => img.data (img.origin + dotI p ss))
        = ((allPositions ns).map (fun p => dotI p ss)).map
            (fun t => img.data (img.origin + t)) := by
    intro ns ss
    rw [List.map_map]
    rfl
  simp only [Image.sampleList, Image.squeeze]
  rw [e1, e1, offsets_squeeze2 img.sizes img.strides h]

theorem scanLoop_store (f : Image α → Image Bool → α) (tin : Image α)
    (tm : Image Bool) (hasMask : Bool) (fullSizes : List Nat)
    (fullIn fullM : List Int) (bIn bM : Int) (st0 : Int → α)
    (h1 : fullIn.length = fullSizes.length) (h2 : fullM.length = fullSizes.length)
    (hpos : ∀ n ∈ fullSizes, 0 < n) :
    ∀ P, inBox P fullSizes →
      scanLoop f tin tm hasMask (fullSizes.filter (fun n => decide (1 < n)))
          (cmpStr fullSizes fullIn) (cmpStr fullSizes fullM)
          (cmpStr fullSizes (stdStrides 1 fullSizes))
          (fullSizes.filter (fun n => decide (1 < n))).prod
          (List.replicate (fullSizes.filter (fun n => decide (1 < n))).length 0)
          bIn bM 0 st0 (dotI P (stdStrides 1 fullSizes))
        = f { tin with origin := bIn + dotI P fullIn }
            { tm with origin := if hasMask then bM + dotI P fullM else bM } := by
  intro P hP
  have hstdlen : (stdStrides 1 fullSizes).length = fullSizes.length :=
    stdStrides_length 1 fullSizes
  have hcs : ∀ n ∈ fullSizes.filter (fun n => decide (1 < n)), 0 < n := by
    intro n hn
    have := List.of_mem_filter hn
    simp only [decide_eq_true_eq] at this
    omega
  have hbox : ∀ Q, inBox Q fullSizes →
      dotI Q (stdStrides 1 fullSizes) = (rank Q fullSizes : Int) := by
    intro Q hQ
    rw [dotI_stdStrides 1 hQ, one_mul]
  have hinj : ∀ p q, inBox p (fullSizes.filter (fun n => decide (1 < n)))
      → inBox q (fullSizes.filter (fun n => decide (1 < n)))
      → dotI p (cmpStr fullSizes (stdStrides 1 fullSizes))
        = dotI q (cmpStr fullSizes (stdStrides 1 fullSizes)) → p = q := by
    intro p q hp hq hd
    have hPp := inBox_expandPos hpos hp
    have hPq := inBox_expandPos hpos hq
    have hcp := cmpPos_expandPos hp
    have hcq := cmpPos_expandPos hq
    have hdp := dotI_cmp hPp hstdlen
    rw [hcp] at hdp
    have hdq := dotI_cmp hPq hstdlen
    rw [hcq] at hdq
    rw [hdp, hdq, hbox _ hPp, hbox _ hPq] at hd
    have : rank (expandPos fullSizes p) fullSizes = rank (expandPos fullSizes q) fullSizes := by
      exact_mod_cast hd
    have heq := rank_inj hPp hPq this
    rw [← hcp, ← hcq, heq]
  have hq := inBox_cmpPos hP
  have hzero : inBox (List.replicate
      (fullSizes.filter (fun n => decide (1 < n))).length 0)
      (fullSizes.filter (fun n => decide (1 < n))) := inBox_replicate_zero hcs
  have hspec := scanLoop_spec f tin tm hasMask
    (fullSizes.filter (fun n => decide (1 < n)))
    (cmpStr fullSizes fullIn) (cmpStr fullSizes fullM)
    (cmpStr fullSizes (stdStrides 1 fullSizes))
    (by rw [cmpStr_length h1]) (by rw [cmpStr_length h2])
    (by rw [cmpStr_length hstdlen]) hinj
    bIn bM 0
    (fullSizes.filter (fun n => decide (1 < n))).prod
    (List.replicate (fullSizes.filter (fun n => decide (1 < n))).length 0)
    st0 hzero
    (by simp [rank_replicate_zero])
    (cmpPos fullSizes P) hq
  rw [dotI_replicate_zero, dotI_replicate_zero, dotI_replicate_zero,
    rank_replicate_zero] at hspec
  simp only [add_zero, if_pos (Nat.zero_le _)] at hspec
  have hdin : dotI (cmpPos fullSizes P) (cmpStr fullSizes fullIn) = dotI P fullIn :=
    dotI_cmp hP h1
  have hdm : dotI (cmpPos fullSizes P) (cmpStr fullSizes fullM) = dotI P fullM :=
    dotI_cmp hP h2
  have hdo : dotI (cmpPos fullSizes P) (cmpStr fullSizes (stdStrides 1 fullSizes))
      = dotI P (stdStrides 1 fullSizes) := dotI_cmp hP hstdlen
  rw [hdin, hdm, hdo] at hspec
  rw [show (0 : Int) + dotI P (stdStrides 1 fullSizes)
      = dotI P (stdStrides 1 fullSizes) by ring] at hspec
  by_cases hm : hasMask = true
  · simp only [hm, if_true] at hspec ⊢
    exact hspec
  · have hm0 : hasMask = false := by
      cases hasMask
      · rfl
      · exact absurd rfl hm
    subst hm0
    simp only [Bool.false_eq_true, if_false] at hspec ⊢
    exact hspec

theorem effProcess_length {process0 : List Bool} {ns : List Nat}
    (h : process0 = [] ∨ process0.length = ns.length) :
    (effProcess process0 ns).length = ns.length := by
  unfold effProcess
  by_cases he : process0.isEmpty
  · simp [he]
  · have hl : process0.length = ns.length := by
      rcases h with h | h
      · subst h; simp at he
      · exact h
    simp [he, hl]

theorem outSizesOf_length {process : List Bool} {ns : List Nat}
    (h : process.length = ns.length) : (outSizesOf process ns).length = ns.length := by
  simp [outSizesOf, h]

theorem procSizesOf_length {process : List Bool} {ns : List Nat}
    (h : process.length = ns.length) : (procSizesOf process ns).length = ns.length := by
  simp [procSizesOf, h]

theorem outSizesOf_pos {process : List Bool} {ns : List Nat}
    (hs : ∀ n ∈ ns, 0 < n) : ∀ m ∈ outSizesOf process ns, 0 < m := by
  induction process generalizing ns with
  | nil => intro m hm; simp [outSizesOf] at hm
  | cons b bs ih =>
    cases ns with
    | nil => intro m hm; simp [outSizesOf] at hm
    | cons n ns =>
      intro m hm
      simp only [outSizesOf, List.zipWith_cons_cons, List.mem_cons] at hm
      rcases hm with hm | hm
      · subst hm
        by_cases hb : b
        · simp [hb]
        · simp only [hb, if_false]
          exact hs n (List.mem_cons_self n ns)
      · exact ih (fun x hx => hs x (List.mem_cons_of_mem n hx)) m hm

theorem inBox_all_one {p ns : List Nat} (h1 : ∀ n ∈ ns, n = 1) (h : inBox p ns) :
    p = List.replicate ns.length 0 := by
  induction ns generalizing p with
  | nil =>
    cases p with
    | nil => rfl
    | cons i p => simp [inBox] at h
  | cons n ns ih =>
    cases p with
    | nil => simp [inBox] at h
    | cons i p =>
      simp only [inBox, Bool.and_eq_true, decide_eq_true_eq] at h
      have hn := h1 n (List.mem_cons_self n ns)
      have : i = 0 := by omega
      simp [List.replicate_succ, this,
        ih (fun x hx => h1 x (List.mem_cons_of_mem n hx)) h.2]

theorem outSizesOf_all_one {process : List Bool} {ns : List Nat}
    (hall : process.all id) (hl : process.length = ns.length) :
    ∀ m ∈ outSizesOf process ns, m = 1 := by
  induction process generalizing ns with
  | nil => intro m hm; simp [outSizesOf] at hm
  | cons b bs ih =>
    cases ns with
    | nil => intro m hm; simp [outSizesOf] at hm
    | cons n ns =>
      simp only [List.all_cons, Bool.and_eq_true, id] at hall
      simp only [List.length_cons, Nat.add_right_cancel_iff] at hl
      intro m hm
      simp only [outSizesOf, List.zipWith_cons_cons, List.mem_cons] at hm
      rcases hm with hm | hm
      · subst hm; simp [hall.1]
      · exact ih hall.2 hl m hm

theorem procSizesOf_all_true {process : List Bool} {ns : List Nat}
    (hall : process.all id) (hl : process.length = ns.length) :
    procSizesOf process ns = ns := by
  induction process generalizing ns with
  | nil =>
    cases ns with
    | nil => rfl
    | cons n ns => simp at hl
  | cons b bs ih =>
    cases ns with
    | nil => simp at hl
    | cons n ns =>
      simp only [List.all_cons, Bool.and_eq_true, id] at hall
      simp only [List.length_cons, Nat.add_right_cancel_iff] at hl
      have := ih hall.2 hl
      unfold procSizesOf at this ⊢
      rw [List.zipWith_cons_cons, if_pos hall.1, this]

theorem expandStrides_length (szs : List Nat) (sts : List Int) (ns : List Nat) :
    (expandStrides szs sts ns).length = ns.length := by
  induction ns generalizing szs sts with
  | nil =>
    cases szs with
    | nil => rfl
    | cons a as => cases sts <;> rfl
  | cons n ns ih =>
    cases szs with
    | nil =>
      cases sts with
      | nil => simp [expandStrides, ih]
      | cons s ss => simp [expandStrides, ih]
    | cons a as =>
      cases sts with
      | nil => simp [expandStrides, ih]
      | cons s ss => simp [expandStrides, ih]

theorem stdStrides_cons_one (t : Nat) (ns : List Nat) :
    stdStrides 1 (t :: ns) = 1 :: stdStrides (t : Int) ns := by
  simp [stdStrides]

theorem take_of_len_eq {β : Type} {l : List β} {n : Nat} (h : l.length = n) :
    l.take n = l := by
  subst h
  exact List.take_length l

theorem dotI_append_zero (q : List Nat) (ss : List Int) :
    dotI (q ++ [0]) ss = dotI q ss := by
  induction q generalizing ss with
  | nil => cases ss <;> simp [dotI]
  | cons i q ih =>
    cases ss with
    | nil => rfl
    | cons s ss => simp [dotI, ih]

theorem dotI_take_length (q : List Nat) (ss : List Int) :
    dotI q (ss.take q.length) = dotI q ss := by
  induction q generalizing ss with
  | nil => cases ss <;> rfl
  | cons i q ih =>
    cases ss with
    | nil => rfl
    | cons s ss => simp [dotI, List.take_succ_cons, ih]

theorem stdStrides_take (s : Int) (ns : List Nat) (j : Nat) :
    (stdStrides s ns).take j = stdStrides s (ns.take j) := by
  induction ns generalizing s j with
  | nil => simp [stdStrides]
  | cons n ns ih =>
    cases j with
    | zero => rfl
    | succ j => simp [stdStrides, List.take_succ_cons, ih]

/-- Characterization of the single-channel scan: with one tensor element no
tensor-to-spatial insertion happens, the compaction over the first `nDims`
entries covers every dimension, and each output position holds the
reduction of the collapsed block at that position. -/
theorem ProjectionScan_spec {α : Type} [Inhabited α]
    (c_in : Image α) (c_mask : Image Bool) (c_out : Image α)
    (process0 : List Bool) (f : Image α → Image Bool → α) (red : List α → α)
    (hws : c_in.strides.length = c_in.sizes.length)
    (ht1 : c_in.tensor = 1)
    (hwsz : ∀ n ∈ c_in.sizes, 0 < n)
    (hproc : process0 = [] ∨ process0.length = c_in.sizes.length)
    (hnd : (effProcess process0 c_in.sizes).any id = true)
    (hf : ∀ v m, m.forged = false → f v m = red v.sampleList) :
    ∃ out : Image α,
      ProjectionScan c_in c_mask c_out process0 f = .ok out ∧
      out.sizes = outSizesOf (effProcess process0 c_in.sizes) c_in.sizes ∧
      out.tensor = c_in.tensor ∧
      ∀ (k : Nat) (p : List Nat), k < c_in.tensor →
        inBox p (outSizesOf (effProcess process0 c_in.sizes) c_in.sizes) →
        out.sampleT k p
          = red (Image.sampleList
              { c_in with
                  sizes := procSizesOf (effProcess process0 c_in.sizes) c_in.sizes,
                  origin := c_in.origin + (k : Int) * c_in.tstride + dotI p c_in.strides }) := by
  have hg1 : ¬(¬ process0.isEmpty = true ∧ process0.length ≠ c_in.sizes.length) := by
    rcases hproc with h | h
    · subst h; simp
    · intro hc; exact hc.2 h
  have hg2 : ¬(c_mask.forged = true ∧ ¬ checkIsMask unforgedMask c_in.sizes = true) := by
    intro hc
    exact hc.2 (by simp [checkIsMask, unforgedMask])
  have hg3 : ¬¬ (effProcess process0 c_in.sizes).any id = true := not_not_intro hnd
  simp only [ProjectionScan]
  rw [if_neg hg1, if_neg hg2, if_neg hg3]
  have hT : ¬ 1 < c_in.tensor := by omega
  simp only [if_neg hT, hT, false_and, if_false]
  by_cases hall : (effProcess process0 c_in.sizes).all id
  · rw [if_pos hall]
    refine ⟨_, rfl, rfl, rfl, ?_⟩
    intro k p hk hp
    have hk0 : k = 0 := by omega
    subst hk0
    have hel : (effProcess process0 c_in.sizes).length = c_in.sizes.length :=
      effProcess_length hproc
    have hone : ∀ m ∈ outSizesOf (effProcess process0 c_in.sizes) c_in.sizes, m = 1 :=
      outSizesOf_all_one hall hel
    have hp0 : p = List.replicate
        (outSizesOf (effProcess process0 c_in.sizes) c_in.sizes).length 0 :=
      inBox_all_one hone hp
    subst hp0
    have hmf : (if c_mask.forged = true then expandSingletonDimensions unforgedMask c_in.sizes
        else unforgedMask).forged = false := by
      by_cases hcm : c_mask.forged = true <;>
        simp [hcm, expandSingletonDimensions, unforgedMask]
    simp only [Image.sampleT, reforge, dotI_replicate_zero, Nat.cast_zero, zero_mul,
      add_zero, zero_add, if_pos rfl]
    rw [hf _ _ hmf]
    refine congrArg red (Eq.symm (sampleList_eq_of ?_ ?_ ?_ ?_))
    · exact (procSizesOf_all_true hall hel)
    · rfl
    · simp
    · rfl
  · rw [if_neg hall]
    rw [ht1]
    simp only [reforge, Nat.cast_one]
    have hel : (effProcess process0 c_in.sizes).length = c_in.sizes.length :=
      effProcess_length hproc
    have hosl : (outSizesOf (effProcess process0 c_in.sizes) c_in.sizes).length
        = c_in.sizes.length := outSizesOf_length hel
    have hpsl : (procSizesOf (effProcess process0 c_in.sizes) c_in.sizes).length
        = c_in.sizes.length := procSizesOf_length hel
    have hosp : ∀ m ∈ outSizesOf (effProcess process0 c_in.sizes) c_in.sizes, 0 < m :=
      outSizesOf_pos hwsz
    have h1len : c_in.strides.length
        = (outSizesOf (effProcess process0 c_in.sizes) c_in.sizes).length := by
      rw [hws, hosl]
    have htk1 : List.take c_in.sizes.length
        (outSizesOf (effProcess process0 c_in.sizes) c_in.sizes)
        = outSizesOf (effProcess process0 c_in.sizes) c_in.sizes := take_of_len_eq hosl
    have htk2 : List.take c_in.sizes.length c_in.strides = c_in.strides :=
      take_of_len_eq hws
    have htk4 : List.take c_in.sizes.length
        (stdStrides 1 (outSizesOf (effProcess process0 c_in.sizes) c_in.sizes))
        = stdStrides 1 (outSizesOf (effProcess process0 c_in.sizes) c_in.sizes) :=
      take_of_len_eq (by rw [stdStrides_length, hosl])
    by_cases hcm : c_mask.forged = true
    · simp only [hcm, if_true]
      have htk3 : List.take c_in.sizes.length
          (expandSingletonDimensions unforgedMask c_in.sizes).strides
          = (expandSingletonDimensions unforgedMask c_in.sizes).strides :=
        take_of_len_eq (by simp [expandSingletonDimensions, expandStrides_length])
      rw [htk1, htk2, htk3, htk4]
      refine ⟨_, rfl, rfl, rfl, ?_⟩
      intro k p hk hp
      have hk0 : k = 0 := by omega
      subst hk0
      have h2len : (expandSingletonDimensions unforgedMask c_in.sizes).strides.length
          = (outSizesOf (effProcess process0 c_in.sizes) c_in.sizes).length := by
        simp [expandSingletonDimensions, expandStrides_length, hosl]
      have hst := scanLoop_store f
        ({ sizes := procSizesOf (effProcess process0 c_in.sizes) c_in.sizes,
           strides := c_in.strides, tensor := 1, tstride := c_in.tstride,
           origin := c_in.origin, data := c_in.data, forged := c_in.forged } :
             Image α).squeeze
        ({ sizes := procSizesOf (effProcess process0 c_in.sizes) c_in.sizes,
           strides := (expandSingletonDimensions unforgedMask c_in.sizes).strides,
           tensor := (expandSingletonDimensions unforgedMask c_in.sizes).tensor,
           tstride := (expandSingletonDimensions unforgedMask c_in.sizes).tstride,
           origin := (expandSingletonDimensions unforgedMask c_in.sizes).origin,
           data := (expandSingletonDimensions unforgedMask c_in.sizes).data,
           forged := (expandSingletonDimensions unforgedMask c_in.sizes).forged } :
             Image Bool).squeeze
        true (outSizesOf (effProcess process0 c_in.sizes) c_in.sizes)
        c_in.strides (expandSingletonDimensions unforgedMask c_in.sizes).strides
        ({ sizes := procSizesOf (effProcess process0 c_in.sizes) c_in.sizes,
           strides := c_in.strides, tensor := 1, tstride := c_in.tstride,
           origin := c_in.origin, data := c_in.data, forged := c_in.forged } :
             Image α).squeeze.origin
        ({ sizes := procSizesOf (effProcess process0 c_in.sizes) c_in.sizes,
           strides := (expandSingletonDimensions unforgedMask c_in.sizes).strides,
           tensor := (expandSingletonDimensions unforgedMask c_in.sizes).tensor,
           tstride := (expandSingletonDimensions unforgedMask c_in.sizes).tstride,
           origin := (expandSingletonDimensions unforgedMask c_in.sizes).origin,
           data := (expandSingletonDimensions unforgedMask c_in.sizes).data,
           forged := (expandSingletonDimensions unforgedMask c_in.sizes).forged } :
             Image Bool).squeeze.origin
        (fun _ => (default : α)) h1len h2len hosp p hp
      simp only [Image.sampleT, Nat.cast_zero, zero_mul, add_zero, zero_add]
      rw [hst]
      refine (hf _ _ rfl).trans (congrArg red ?_)
      refine Eq.trans (sampleList_eq_of (b := Image.squeeze
        { sizes := procSizesOf (effProcess process0 c_in.sizes) c_in.sizes,
          strides := c_in.strides, tensor := 1, tstride := c_in.tstride,
          origin := c_in.origin + dotI p c_in.strides, data := c_in.data,
          forged := c_in.forged }) rfl rfl rfl rfl) ?_
      exact sampleList_squeeze _ (by rw [hws, hpsl])
    · have hcm0 : c_mask.forged = false := by
        cases hcmv : c_mask.forged
        · rfl
        · exact absurd hcmv hcm
      simp only [hcm0, Bool.false_eq_true, false_and, if_false]
      have htk3 : List.take c_in.sizes.length (List.replicate c_in.sizes.length (0 : Int))
          = List.replicate c_in.sizes.length (0 : Int) := take_of_len_eq (by simp)
      rw [htk1, htk2, htk3, htk4]
      refine ⟨_, rfl, rfl, rfl, ?_⟩
      intro k p hk hp
      have hk0 : k = 0 := by omega
      subst hk0
      have h2len : (List.replicate c_in.sizes.length (0 : Int)).length
          = (outSizesOf (effProcess process0 c_in.sizes) c_in.sizes).length := by
        simp [hosl]
      have hst := scanLoop_store f
        ({ sizes := procSizesOf (effProcess process0 c_in.sizes) c_in.sizes,
           strides := c_in.strides, tensor := 1, tstride := c_in.tstride,
           origin := c_in.origin, data := c_in.data, forged := c_in.forged } :
             Image α).squeeze
        unforgedMask false (outSizesOf (effProcess process0 c_in.sizes) c_in.sizes)
        c_in.strides
        (List.replicate c_in.sizes.length 0)
        ({ sizes := procSizesOf (effProcess process0 c_in.sizes) c_in.sizes,
           strides := c_in.strides, tensor := 1, tstride := c_in.tstride,
           origin := c_in.origin, data := c_in.data, forged := c_in.forged } :
             Image α).squeeze.origin
        unforgedMask.origin
        (fun _ => (default : α)) h1len h2len hosp p hp
      simp only [Image.sampleT, Nat.cast_zero, zero_mul, add_zero, zero_add]
      rw [hst]
      refine (hf _ _ rfl).trans (congrArg red ?_)
      refine Eq.trans (sampleList_eq_of (b := Image.squeeze
        { sizes := procSizesOf (effProcess process0 c_in.sizes) c_in.sizes,
          strides := c_in.strides, tensor := 1, tstride := c_in.tstride,
          origin := c_in.origin + dotI p c_in.strides, data := c_in.data,
          forged := c_in.forged }) rfl rfl rfl rfl) ?_
      exact sampleList_squeeze _ (by rw [hws, hpsl])

/-- Characterization of the multi-channel scan.  The tensor axis becomes
spatial dimension 0, but `nDims` is never updated, so the compaction loop
covers the tensor axis and only the first `nDims - 1` spatial dimensions:
the odometer iterates over channels paired with output positions of the
form `q ++ [0]` (last spatial coordinate 0), and at exactly those
positions the output holds the channel-`k` block reduction. -/
theorem ProjectionScan_spec_multi {α : Type} [Inhabited α]
    (c_in : Image α) (c_mask : Image Bool) (c_out : Image α)
    (process0 : List Bool) (f : Image α → Image Bool → α) (red : List α → α)
    (hws : c_in.strides.length = c_in.sizes.length)
    (hT : 1 < c_in.tensor)
    (hwsz : ∀ n ∈ c_in.sizes, 0 < n)
    (hproc : process0 = [] ∨ process0.length = c_in.sizes.length)
    (hnd : (effProcess process0 c_in.sizes).any id = true)
    (hf : ∀ v m, m.forged = false → f v m = red v.sampleList) :
    ∃ out : Image α,
      ProjectionScan c_in c_mask c_out process0 f = .ok out ∧
      out.sizes = outSizesOf (effProcess process0 c_in.sizes) c_in.sizes ∧
      out.tensor = c_in.tensor ∧
      ∀ (k : Nat) (q : List Nat), k < c_in.tensor →
        inBox q ((outSizesOf (effProcess process0 c_in.sizes) c_in.sizes).take
          (c_in.sizes.length - 1)) →
        out.sampleT k (q ++ [0])
          = red (Image.sampleList
              { c_in with
                  sizes := procSizesOf (effProcess process0 c_in.sizes) c_in.sizes,
                  origin := c_in.origin + (k : Int) * c_in.tstride
                    + dotI (q ++ [0]) c_in.strides }) := by
  have hg1 : ¬(¬ process0.isEmpty = true ∧ process0.length ≠ c_in.sizes.length) := by
    rcases hproc with h | h
    · subst h; simp
    · intro hc; exact hc.2 h
  have hg2 : ¬(c_mask.forged = true ∧ ¬ checkIsMask unforgedMask c_in.sizes = true) := by
    intro hc
    exact hc.2 (by simp [checkIsMask, unforgedMask])
  have hg3 : ¬¬ (effProcess process0 c_in.sizes).any id = true := not_not_intro hnd
  simp only [ProjectionScan]
  rw [if_neg hg1, if_neg hg2, if_neg hg3]
  have hTmask : ¬ ((false : Bool) :: effProcess process0 c_in.sizes).all id = true := by
    simp
  simp only [hT, if_true, true_and]
  rw [if_neg hTmask]
  simp only [reforge, Image.tensorToSpatial0, expandSingletonDimensions, unforgedMask]
  have hel : (effProcess process0 c_in.sizes).length = c_in.sizes.length :=
    effProcess_length hproc
  have hosl : (outSizesOf (effProcess process0 c_in.sizes) c_in.sizes).length
      = c_in.sizes.length := outSizesOf_length hel
  have hpsl : (procSizesOf (effProcess process0 c_in.sizes) c_in.sizes).length
      = c_in.sizes.length := procSizesOf_length hel
  have hlp : 0 < c_in.sizes.length := by
    rcases List.any_eq_true.mp hnd with ⟨b, hb, _⟩
    have := List.length_pos_of_mem hb
    omega
  obtain ⟨d, hd⟩ : ∃ d, c_in.sizes.length = d + 1 := ⟨c_in.sizes.length - 1, by omega⟩
  have hdd : c_in.sizes.length - 1 = d := by omega
  have hosp : ∀ m ∈ c_in.tensor
      :: (outSizesOf (effProcess process0 c_in.sizes) c_in.sizes).take d, 0 < m := by
    intro m hm
    rcases List.mem_cons.mp hm with hm | hm
    · omega
    · exact outSizesOf_pos hwsz m (List.take_subset _ _ hm)
  have h1len : (c_in.tstride :: List.take d c_in.strides).length
      = (c_in.tensor
          :: (outSizesOf (effProcess process0 c_in.sizes) c_in.sizes).take d).length := by
    simp [List.length_take, hws, hosl]
  by_cases hcm : c_mask.forged = true
  · simp only [hcm, if_true]
    refine ⟨_, rfl, rfl, rfl, ?_⟩
    intro k q hk hq
    rw [hdd] at hq
    have hql : q.length = d := by
      have h1 := inBox_length hq
      rw [List.length_take, hosl, hd] at h1
      omega
    rw [hd]
    simp only [List.take_succ_cons]
    rw [stdStrides_take]
    have h2len : ((0 : Int) :: List.take d (expandStrides [] [] c_in.sizes)).length
        = (c_in.tensor
            :: (outSizesOf (effProcess process0 c_in.sizes) c_in.sizes).take d).length := by
      simp [List.length_take, expandStrides_length, hosl]
    have hP : inBox (k :: q)
        (c_in.tensor :: (outSizesOf (effProcess process0 c_in.sizes) c_in.sizes).take d)
        = true := by
      simp [inBox, hk, hq]
    have hst := scanLoop_store f
      ({ sizes := 1 :: procSizesOf (effProcess process0 c_in.sizes) c_in.sizes,
         strides := c_in.tstride :: c_in.strides, tensor := 1, tstride := c_in.tstride,
         origin := c_in.origin, data := c_in.data, forged := c_in.forged } :
           Image α).squeeze
      ({ sizes := 1 :: procSizesOf (effProcess process0 c_in.sizes) c_in.sizes,
         strides := (0 : Int) :: expandStrides [] [] c_in.sizes, tensor := 1,
         tstride := 0, origin := 0, data := fun _ => false, forged := false } :
           Image Bool).squeeze
      true (c_in.tensor :: (outSizesOf (effProcess process0 c_in.sizes) c_in.sizes).take d)
      (c_in.tstride :: List.take d c_in.strides)
      ((0 : Int) :: List.take d (expandStrides [] [] c_in.sizes))
      ({ sizes := 1 :: procSizesOf (effProcess process0 c_in.sizes) c_in.sizes,
         strides := c_in.tstride :: c_in.strides, tensor := 1, tstride := c_in.tstride,
         origin := c_in.origin, data := c_in.data, forged := c_in.forged } :
           Image α).squeeze.origin
      ({ sizes := 1 :: procSizesOf (effProcess process0 c_in.sizes) c_in.sizes,
         strides := (0 : Int) :: expandStrides [] [] c_in.sizes, tensor := 1,
         tstride := 0, origin := 0, data := fun _ => false, forged := false } :
           Image Bool).squeeze.origin
      (fun _ => (default : α)) h1len h2len hosp (k :: q) hP
    rw [stdStrides_cons_one] at hst
    simp only [dotI, mul_one] at hst
    simp only [Image.sampleT, mul_one, zero_add]
    have heq2 : dotI (q ++ [0])
        (stdStrides (c_in.tensor : Int) (outSizesOf (effProcess process0 c_in.sizes) c_in.sizes))
        = dotI q (stdStrides (c_in.tensor : Int)
            ((outSizesOf (effProcess process0 c_in.sizes) c_in.sizes).take d)) := by
      rw [dotI_append_zero, ← stdStrides_take, ← hql, dotI_take_length]
    rw [heq2, hst]
    refine (hf _ _ rfl).trans (congrArg red ?_)
    refine Eq.trans (sampleList_eq_of (b := Image.squeeze
      { sizes := procSizesOf (effProcess process0 c_in.sizes) c_in.sizes,
        strides := c_in.strides, tensor := 1, tstride := c_in.tstride,
        origin := c_in.origin + (↑k * c_in.tstride + dotI q (List.take d c_in.strides)),
        data := c_in.data, forged := c_in.forged }) rfl rfl rfl rfl) ?_
    refine Eq.trans (sampleList_squeeze _ (by rw [hws, hpsl])) ?_
    refine sampleList_eq_of rfl rfl ?_ rfl
    rw [dotI_append_zero, ← hql, dotI_take_length]
    ring
  · have hcm0 : c_mask.forged = false := by
      cases hcmv : c_mask.forged
      · rfl
      · exact absurd hcmv hcm
    simp only [hcm0, Bool.false_eq_true, false_and, if_false]
    refine ⟨_, rfl, rfl, rfl, ?_⟩
    intro k q hk hq
    rw [hdd] at hq
    have hql : q.length = d := by
      have h1 := inBox_length hq
      rw [List.length_take, hosl, hd] at h1
      omega
    rw [hd]
    simp only [List.take_succ_cons]
    rw [stdStrides_take]
    rw [show List.take (d + 1) (List.replicate (d + 1) (0 : Int))
        = List.replicate (d + 1) (0 : Int) from take_of_len_eq (by simp)]
    have h2len : (List.replicate (d + 1) (0 : Int)).length
        = (c_in.tensor
            :: (outSizesOf (effProcess process0 c_in.sizes) c_in.sizes).take d).length := by
      simp only [List.length_replicate, List.length_cons, List.length_take, hosl, hd]
      omega
    have hP : inBox (k :: q)
        (c_in.tensor :: (outSizesOf (effProcess process0 c_in.sizes) c_in.sizes).take d)
        = true := by
      simp [inBox, hk, hq]
    have hst := scanLoop_store f
      ({ sizes := 1 :: procSizesOf (effProcess process0 c_in.sizes) c_in.sizes,
         strides := c_in.tstride :: c_in.strides, tensor := 1, tstride := c_in.tstride,
         origin := c_in.origin, data := c_in.data, forged := c_in.forged } :
           Image α).squeeze
      ({ sizes := [], strides := [], tensor := 1, tstride := 0, origin := 0,
         data := fun _ => false, forged := false } : Image Bool)
      false (c_in.tensor :: (outSizesOf (effProcess process0 c_in.sizes) c_in.sizes).take d)
      (c_in.tstride :: List.take d c_in.strides)
      (List.replicate (d + 1) (0 : Int))
      ({ sizes := 1 :: procSizesOf (effProcess process0 c_in.sizes) c_in.sizes,
         strides := c_in.tstride :: c_in.strides, tensor := 1, tstride := c_in.tstride,
         origin := c_in.origin, data := c_in.data, forged := c_in.forged } :
           Image α).squeeze.origin
      (0 : Int)
      (fun _ => (default : α)) h1len h2len hosp (k :: q) hP
    rw [stdStrides_cons_one] at hst
    simp only [dotI, mul_one] at hst
    simp only [Image.sampleT, mul_one, zero_add]
    have heq2 : dotI (q ++ [0])
        (stdStrides (c_in.tensor : Int) (outSizesOf (effProcess process0 c_in.sizes) c_in.sizes))
        = dotI q (stdStrides (c_in.tensor : Int)
            ((outSizesOf (effProcess process0 c_in.sizes) c_in.sizes).take d)) := by
      rw [dotI_append_zero, ← stdStrides_take, ← hql, dotI_take_length]
    rw [heq2, hst]
    refine (hf _ _ rfl).trans (congrArg red ?_)
    refine Eq.trans (sampleList_eq_of (b := Image.squeeze
      { sizes := procSizesOf (effProcess process0 c_in.sizes) c_in.sizes,
        strides := c_in.strides, tensor := 1, tstride := c_in.tstride,
        origin := c_in.origin + (↑k * c_in.tstride + dotI q (List.take d c_in.strides)),
        data := c_in.data, forged := c_in.forged }) rfl rfl rfl rfl) ?_
    refine Eq.trans (sampleList_squeeze _ (by rw [hws, hpsl])) ?_
    refine sampleList_eq_of rfl rfl ?_ rfl
    rw [dotI_append_zero, ← hql, dotI_take_length]
    ring

/-- Concrete test image: standard layout, values stored flat. -/
def mkImg (sizes : List Nat) (t : Nat) (vals : List ℚ) : Image ℚ :=
  { sizes := sizes, strides := stdStrides (t : Int) sizes, tensor := t, tstride := 1,
    origin := 0,
    data := fun i => if h : 0 ≤ i ∧ i.toNat < vals.length then vals.get ⟨i.toNat, h.2⟩ else 0,
    forged := true }

/-- Concrete binary mask image: standard layout, values stored flat. -/
def mkMask (sizes : List Nat) (vals : List Bool) : Image Bool :=
  { sizes := sizes, strides := stdStrides 1 sizes, tensor := 1, tstride := 1,
    origin := 0,
    data := fun i => if h : 0 ≤ i ∧ i.toNat < vals.length then vals.get ⟨i.toNat, h.2⟩
                     else false,
    forged := true }

/-- A default-constructed (unforged) rational image, as passed for `out`. -/
def unforgedQ : Image ℚ :=
  { sizes := [], strides := [], tensor := 1, tstride := 0, origin := 0,
    data := fun _ => 0, forged := false }

theorem sampleList_length (img : Image α) : img.sampleList.length = img.numberOfPixels := by
  simp [Image.sampleList, Image.numberOfPixels, length_allPositions]

/-- `ProjectionMean` as a function of the sample list (mask unforged). -/
def meanOfList (computeMean : Bool) (l : List ℚ) : ℚ :=
  if computeMean ∧ 0 < l.length then l.sum / (l.length : ℚ) else l.sum

theorem projectionMean_unforged (b : Bool) (img : Image ℚ) (m : Image Bool)
    (h : m.forged = false) : ProjectionMean b img m = meanOfList b img.sampleList := by
  simp only [ProjectionMean, h, Bool.false_eq_true, if_false, meanOfList, sampleList_length]

theorem procSizesOf_pos {process : List Bool} {ns : List Nat}
    (hs : ∀ n ∈ ns, 0 < n) : ∀ m ∈ procSizesOf process ns, 0 < m := by
  induction process generalizing ns with
  | nil => intro m hm; simp [procSizesOf] at hm
  | cons b bs ih =>
    cases ns with
    | nil => intro m hm; simp [procSizesOf] at hm
    | cons n ns =>
      intro m hm
      simp only [procSizesOf, List.zipWith_cons_cons, List.mem_cons] at hm
      rcases hm with hm | hm
      · subst hm
        by_cases hb : b
        · simp only [hb, if_true]
          exact hs n (List.mem_cons_self n ns)
        · simp [hb]
      · exact ih (fun x hx => hs x (List.mem_cons_of_mem n hx)) m hm

theorem prod_pos_of_mem {ns : List Nat} (h : ∀ n ∈ ns, 0 < n) : 0 < ns.prod := by
  induction ns with
  | nil => simp
  | cons n ns ih =>
    simp only [List.prod_cons]
    exact Nat.mul_pos (h n (List.mem_cons_self n ns))
      (ih (fun x hx => h x (List.mem_cons_of_mem n hx)))

/-- **C4.** After forcing the process flag to false for every size-1
dimension, if no dimension remains selected, the projection returns the
input unchanged (`c_out = c_in`), ignoring any supplied mask, without
invoking the reduction function and without allocating a new output. -/
theorem C4_degenerate_returns_input {α : Type} [Inhabited α]
    (c_in : Image α) (c_mask : Image Bool) (c_out : Image α)
    (process0 : List Bool) (f : Image α → Image Bool → α)
    (hlen : process0 = [] ∨ process0.length = c_in.sizes.length)
    (hnone : (effProcess process0 c_in.sizes).any id = false) :
    ProjectionScan c_in c_mask c_out process0 f = .ok c_in := by
  have hg1 : ¬(¬ process0.isEmpty = true ∧ process0.length ≠ c_in.sizes.length) := by
    rcases hlen with h | h
    · subst h; simp
    · intro hc; exact hc.2 h
  have hg2 : ¬(c_mask.forged = true ∧ ¬ checkIsMask unforgedMask c_in.sizes = true) := by
    intro hc
    exact hc.2 (by simp [checkIsMask, unforgedMask])
  simp only [ProjectionScan]
  rw [if_neg hg1, if_neg hg2, if_pos (by rw [hnone]; exact Bool.false_ne_true)]

/-- Witness for C4: a 1×1 image with a forged all-false mask and an empty
selector comes back unchanged. -/
theorem C4_degenerate_returns_input_witness :
    (([] : List Bool) = [] ∨ ([] : List Bool).length = (mkImg [1, 1] 1 [7]).sizes.length) ∧
    ((effProcess [] (mkImg [1, 1] 1 [7]).sizes).any id = false) ∧
    ProjectionScan (mkImg [1, 1] 1 [7]) (mkMask [1, 1] [false]) unforgedQ []
        (ProjectionMean false) = .ok (mkImg [1, 1] 1 [7]) :=
  ⟨Or.inl rfl, by decide,
    C4_degenerate_returns_input (mkImg [1, 1] 1 [7]) (mkMask [1, 1] [false]) unforgedQ []
      (ProjectionMean false) (Or.inl rfl) (by decide)⟩

/-- **C5.** The Mean reducer writes `sum / n` when the participating count
`n` is positive, and the raw running sum — which is 0 — when every element
is masked out. -/
theorem C5_mean_zero_count (img : Image ℚ) (m : Image Bool) (h : m.forged = true) :
    (0 < (maskedSamples img m).length →
      ProjectionMean true img m
        = (maskedSamples img m).sum / ((maskedSamples img m).length : ℚ)) ∧
    ((maskedSamples img m).length = 0 → ProjectionMean true img m = 0) := by
  constructor
  · intro hn
    simp [ProjectionMean, h, hn]
  · intro hn
    have : maskedSamples img m = [] := List.length_eq_zero.mp hn
    simp [ProjectionMean, h, this]

/-- Witness for C5: a mask that selects nothing makes Mean write 0. -/
theorem C5_mean_zero_count_witness :
    (mkMask [2] [false, false]).forged = true ∧
    ((maskedSamples (mkImg [2] 1 [1, 2]) (mkMask [2] [false, false])).length = 0 →
      ProjectionMean true (mkImg [2] 1 [1, 2]) (mkMask [2] [false, false]) = 0) :=
  ⟨rfl, (C5_mean_zero_count (mkImg [2] 1 [1, 2]) (mkMask [2] [false, false]) rfl).2⟩

/-- **C8.** `Percentile` at percentile 0 is exactly `Minimum`, and at
percentile 100 exactly `Maximum`, for every input, mask, output slot and
process selector. -/
theorem C8_percentile_endpoints (lowest highest : ℚ) (in_ : Image ℚ) (mask : Image Bool)
    (out : Image ℚ) (process : List Bool) :
    Percentile lowest highest in_ mask out 0 process = Minimum highest in_ mask out process ∧
    Percentile lowest highest in_ mask out 100 process = Maximum lowest in_ mask out process := by
  constructor
  · simp [Percentile]
  · rw [Percentile, if_neg (by norm_num), if_pos rfl]

/-- **C10.** For every percentile strictly between 0 and 100, `Percentile`
returns without an error and leaves the output argument exactly as passed:
nothing is allocated, resized or written. -/
theorem C10_percentile_mid_noop (lowest highest : ℚ) (in_ : Image ℚ) (mask : Image Bool)
    (out : Image ℚ) (percentile : ℚ) (process : List Bool)
    (h0 : 0 < percentile) (h100 : percentile < 100) :
    Percentile lowest highest in_ mask out percentile process = .ok out := by
  rw [Percentile, if_neg (by exact ne_of_gt h0), if_neg (by exact ne_of_lt h100)]

/-- Witness for C10 at percentile 50. -/
theorem C10_percentile_mid_noop_witness :
    (0 : ℚ) < 50 ∧ (50 : ℚ) < 100 ∧
    Percentile 0 0 (mkImg [2] 1 [1, 2]) unforgedMask unforgedQ 50 [] = .ok unforgedQ :=
  ⟨by norm_num, by norm_num,
    C10_percentile_mid_noop 0 0 (mkImg [2] 1 [1, 2]) unforgedMask unforgedQ 50 []
      (by norm_num) (by norm_num)⟩

/-- **C1 (code bug).** With a forged mask of compatible shape, the pipeline
sums all elements — the mask-false element contributes.  `ProjectionScan`
assigns `mask = mask.QuickCopy()` from the default-constructed local mask
instead of `c_mask`, so the reduction function always receives an unforged
mask.  The second conjunct shows the reducer itself honors a forged mask
(writing 1, the claimed value), so the controller's line 66 is the slip. -/
theorem C1_mask_ignored_bug :
    (Sum (mkImg [2] 1 [1, 2]) (mkMask [2] [true, false]) unforgedQ []).map
        (fun o => o.data 0) = Except.ok 3
      ∧ ProjectionMean false (mkImg [2] 1 [1, 2]) (mkMask [2] [true, false]) = 1 := by
  constructor
  · norm_num [Sum, ProjectionScan, mkImg, mkMask, unforgedQ, unforgedMask, checkIsMask,
      expandSingletonDimensions, expandStrides, effProcess, outSizesOf, procSizesOf, reforge,
      Image.tensorToSpatial0, Image.squeeze, squeeze2, cmpStr, scanLoop, advance,
      ProjectionMean, maskedSamples, Image.sampleList, Image.numberOfPixels, allPositions,
      dotI, stdStrides, meanOfList, List.range_succ, Except.map]
  · norm_num [ProjectionMean, maskedSamples, mkImg, mkMask, allPositions, dotI, stdStrides,
      List.range_succ, List.filterMap_cons]

/-- **C6 (code bug).** A non-empty process selector of the wrong length does
fail with the invalid-argument error before any output is touched (first
conjunct), but a mask whose shape is incompatible with the input (second
conjunct) raises no error at all: the shape check runs on the
default-constructed local mask, never on `c_mask`, and the call returns a
computed result (third conjunct). -/
theorem C6_validation_bug :
    (∀ (c_in : Image ℚ) (c_mask : Image Bool) (c_out : Image ℚ) (process0 : List Bool)
        (f : Image ℚ → Image Bool → ℚ), process0 ≠ [] →
        process0.length ≠ c_in.sizes.length →
        ProjectionScan c_in c_mask c_out process0 f = .error .arrayParameterWrongLength)
    ∧ maskCompatible (mkMask [3] [true, true, true]).sizes (mkImg [2] 1 [1, 2]).sizes = false
    ∧ (Sum (mkImg [2] 1 [1, 2]) (mkMask [3] [true, true, true]) unforgedQ []).toOption.isSome
        = true := by
  refine ⟨?_, by decide, ?_⟩
  · intro c_in c_mask c_out process0 f hne hlen
    have hc : ¬ process0.isEmpty = true ∧ process0.length ≠ c_in.sizes.length := by
      constructor
      · simpa [List.isEmpty_iff] using hne
      · exact hlen
    simp only [ProjectionScan]
    rw [if_pos hc]
  · norm_num [Sum, ProjectionScan, mkImg, mkMask, unforgedQ, unforgedMask, checkIsMask,
      expandSingletonDimensions, expandStrides, effProcess, outSizesOf, procSizesOf, reforge,
      Image.tensorToSpatial0, Image.squeeze, squeeze2, cmpStr, scanLoop, advance,
      ProjectionMean, maskedSamples, Image.sampleList, Image.numberOfPixels, allPositions,
      dotI, stdStrides, meanOfList, List.range_succ, Except.toOption]

/-- Witness for C6's first conjunct at a concrete wrong-length selector. -/
theorem C6_validation_bug_witness :
    ([true, false] ≠ ([] : List Bool)) ∧
    ([true, false].length ≠ (mkImg [2] 1 [1, 2]).sizes.length) ∧
    ProjectionScan (mkImg [2] 1 [1, 2]) unforgedMask unforgedQ [true, false]
        (ProjectionMean false) = .error .arrayParameterWrongLength :=
  ⟨by decide, by decide,
    C6_validation_bug.1 (mkImg [2] 1 [1, 2]) unforgedMask unforgedQ [true, false]
      (ProjectionMean false) (by decide) (by decide)⟩

theorem getD_zipWith_bn {f : Bool → Nat → Nat} {bs : List Bool} {ns : List Nat}
    (h : bs.length = ns.length) :
    ∀ i, i < ns.length →
      (List.zipWith f bs ns).getD i 0 = f (bs.getD i false) (ns.getD i 0) := by
  induction bs generalizing ns with
  | nil =>
    cases ns with
    | nil => intro i hi; simp at hi
    | cons n ns => simp at h
  | cons b bs ih =>
    cases ns with
    | nil => simp at h
    | cons n ns =>
      simp only [List.length_cons, Nat.add_right_cancel_iff] at h
      intro i hi
      cases i with
      | zero => simp
      | succ j =>
        simp only [List.zipWith_cons_cons, List.getD_cons_succ]
        exact ih h j (by simp only [List.length_cons] at hi; omega)

/-- **C3.** Every output the projection controller hands back has the
input's dimensionality; each dimension that is collapsed (after the
normalization that forces size-1 dimensions off) has size 1 and every other
dimension keeps the input's size.  This covers every statistic entry point,
since each one is a direct `ProjectionScan` invocation. -/
theorem C3_output_shape {α : Type} [Inhabited α]
    (c_in : Image α) (c_mask : Image Bool) (c_out : Image α)
    (process0 : List Bool) (f : Image α → Image Bool → α) (out : Image α)
    (h : ProjectionScan c_in c_mask c_out process0 f = .ok out) :
    out.sizes.length = c_in.sizes.length ∧
    ∀ i, i < c_in.sizes.length →
      out.sizes.getD i 0
        = if (effProcess process0 c_in.sizes).getD i false then 1
          else c_in.sizes.getD i 0 := by
  by_cases hg1 : ¬ process0.isEmpty = true ∧ process0.length ≠ c_in.sizes.length
  · exfalso
    simp only [ProjectionScan] at h
    rw [if_pos hg1] at h
    simp at h
  · have hproc : process0 = [] ∨ process0.length = c_in.sizes.length := by
      rcases Decidable.not_and_iff_or_not.mp hg1 with h1 | h1
      · left
        have : process0.isEmpty = true := by
          cases hv : process0.isEmpty
          · exact absurd (by rw [hv]; exact Bool.false_ne_true) h1
          · rfl
        exact List.isEmpty_iff.mp this
      · right
        exact Decidable.not_not.mp h1
    have hel : (effProcess process0 c_in.sizes).length = c_in.sizes.length :=
      effProcess_length hproc
    have hg2 : ¬(c_mask.forged = true ∧ ¬ checkIsMask unforgedMask c_in.sizes = true) := by
      intro hc
      exact hc.2 (by simp [checkIsMask, unforgedMask])
    simp only [ProjectionScan] at h
    rw [if_neg hg1, if_neg hg2] at h
    by_cases hany : (effProcess process0 c_in.sizes).any id = true
    · rw [if_neg (not_not_intro hany)] at h
      have hsz : out.sizes = outSizesOf (effProcess process0 c_in.sizes) c_in.sizes := by
        split at h <;> split at h <;>
        · simp only [Except.ok.injEq] at h
          rw [← h]
          rfl
      constructor
      · rw [hsz]
        exact outSizesOf_length hel
      · intro i hi
        rw [hsz]
        exact getD_zipWith_bn hel i hi
    · rw [if_pos hany] at h
      simp only [Except.ok.injEq] at h
      subst h
      refine ⟨rfl, ?_⟩
      intro i hi
      have hmem : (effProcess process0 c_in.sizes).getD i false
          ∈ effProcess process0 c_in.sizes := by
        rw [List.getD_eq_getElem (effProcess process0 c_in.sizes) false (by omega)]
        exact List.getElem_mem _
      have hfalse : (effProcess process0 c_in.sizes).getD i false = false := by
        have hv := List.any_eq_false.mp (by
          cases ha : (effProcess process0 c_in.sizes).any id
          · rfl
          · exact absurd ha hany)
        have := hv _ hmem
        simpa [id] using this
      rw [hfalse]
      simp

/-- Witness for C3 at a 2×3 input with selector `[true, false]`. -/
theorem C3_output_shape_witness :
    (ProjectionScan (mkImg [2, 3] 1 [1, 2, 3, 4, 5, 6]) unforgedMask unforgedQ [true, false]
        (ProjectionMean false)
      = .ok ((ProjectionScan (mkImg [2, 3] 1 [1, 2, 3, 4, 5, 6]) unforgedMask unforgedQ
          [true, false] (ProjectionMean false)).toOption.getD unforgedQ)) ∧
    (((ProjectionScan (mkImg [2, 3] 1 [1, 2, 3, 4, 5, 6]) unforgedMask unforgedQ [true, false]
        (ProjectionMean false)).toOption.getD unforgedQ).sizes.length
      = (mkImg [2, 3] 1 [1, 2, 3, 4, 5, 6]).sizes.length ∧
     ∀ i, i < (mkImg [2, 3] 1 [1, 2, 3, 4, 5, 6]).sizes.length →
      ((ProjectionScan (mkImg [2, 3] 1 [1, 2, 3, 4, 5, 6]) unforgedMask unforgedQ [true, false]
          (ProjectionMean false)).toOption.getD unforgedQ).sizes.getD i 0
        = if (effProcess [true, false] (mkImg [2, 3] 1 [1, 2, 3, 4, 5, 6]).sizes).getD i false
          then 1 else (mkImg [2, 3] 1 [1, 2, 3, 4, 5, 6]).sizes.getD i 0) :=
  ⟨rfl, C3_output_shape (mkImg [2, 3] 1 [1, 2, 3, 4, 5, 6]) unforgedMask unforgedQ
    [true, false] (ProjectionMean false) _ rfl⟩

/-- **C7.** With more than one tensor element the channel axis is handled as
an extra leading spatial dimension whose process flag is forced false, and
the output keeps the input's tensor element count.  At every output
position the odometer loop visits — because the source never updates
`nDims` after the insertion, those are exactly the positions whose last
spatial coordinate is 0 — the value written at tensor element `k` is the
reduction of a view whose origin offset contains `k * tstride` and whose
sizes and strides span only the collapsed spatial dimensions: it reads
pixels of channel `k` only, so no reduction ever combines values from
different channels. -/
theorem C7_channel_independent {α : Type} [Inhabited α]
    (c_in : Image α) (c_mask : Image Bool) (c_out : Image α)
    (process0 : List Bool) (f : Image α → Image Bool → α) (red : List α → α)
    (hws : c_in.strides.length = c_in.sizes.length)
    (hT : 1 < c_in.tensor)
    (hwsz : ∀ n ∈ c_in.sizes, 0 < n)
    (hproc : process0 = [] ∨ process0.length = c_in.sizes.length)
    (hnd : (effProcess process0 c_in.sizes).any id = true)
    (hf : ∀ v m, m.forged = false → f v m = red v.sampleList) :
    ∃ out : Image α,
      ProjectionScan c_in c_mask c_out process0 f = .ok out ∧
      out.tensor = c_in.tensor ∧
      ∀ (k : Nat) (q : List Nat), k < c_in.tensor →
        inBox q ((outSizesOf (effProcess process0 c_in.sizes) c_in.sizes).take
          (c_in.sizes.length - 1)) →
        out.sampleT k (q ++ [0])
          = red (Image.sampleList
              { c_in with
                  sizes := procSizesOf (effProcess process0 c_in.sizes) c_in.sizes,
                  origin := c_in.origin + (k : Int) * c_in.tstride
                    + dotI (q ++ [0]) c_in.strides }) := by
  obtain ⟨out, h1, _, h3, h4⟩ := ProjectionScan_spec_multi c_in c_mask c_out process0 f red
    hws hT hwsz hproc hnd hf
  exact ⟨out, h1, h3, h4⟩

/-- Witness for C7: a two-channel 1-D image, summed over its only spatial
dimension (the dropped trailing dimension has size 1 there, so the single
output position `[0]` is visited). -/
theorem C7_channel_independent_witness :
    (mkImg [2] 2 [10, 20, 30, 40]).strides.length
        = (mkImg [2] 2 [10, 20, 30, 40]).sizes.length ∧
    1 < (mkImg [2] 2 [10, 20, 30, 40]).tensor ∧
    (∀ n ∈ (mkImg [2] 2 [10, 20, 30, 40]).sizes, 0 < n) ∧
    (([] : List Bool) = [] ∨ ([] : List Bool).length
        = (mkImg [2] 2 [10, 20, 30, 40]).sizes.length) ∧
    ((effProcess [] (mkImg [2] 2 [10, 20, 30, 40]).sizes).any id = true) ∧
    (∃ out : Image ℚ,
      ProjectionScan (mkImg [2] 2 [10, 20, 30, 40]) unforgedMask unforgedQ []
          (ProjectionMean false) = .ok out ∧
      out.tensor = (mkImg [2] 2 [10, 20, 30, 40]).tensor ∧
      ∀ (k : Nat) (q : List Nat), k < (mkImg [2] 2 [10, 20, 30, 40]).tensor →
        inBox q ((outSizesOf (effProcess [] (mkImg [2] 2 [10, 20, 30, 40]).sizes)
            (mkImg [2] 2 [10, 20, 30, 40]).sizes).take
          ((mkImg [2] 2 [10, 20, 30, 40]).sizes.length - 1)) →
        out.sampleT k (q ++ [0])
          = meanOfList false (Image.sampleList
              { mkImg [2] 2 [10, 20, 30, 40] with
                  sizes := procSizesOf (effProcess [] (mkImg [2] 2 [10, 20, 30, 40]).sizes)
                    (mkImg [2] 2 [10, 20, 30, 40]).sizes,
                  origin := (mkImg [2] 2 [10, 20, 30, 40]).origin
                    + (k : Int) * (mkImg [2] 2 [10, 20, 30, 40]).tstride
                    + dotI (q ++ [0]) (mkImg [2] 2 [10, 20, 30, 40]).strides })) :=
  ⟨by decide, by decide, by decide, Or.inl rfl, by decide,
    C7_channel_independent (mkImg [2] 2 [10, 20, 30, 40]) unforgedMask unforgedQ []
      (ProjectionMean false) (meanOfList false) (by decide) (by decide) (by decide)
      (Or.inl rfl) (by decide) (fun v m hm => projectionMean_unforged false v m hm)⟩

set_option maxHeartbeats 1600000 in
/-- **C9 (code bug).** With more than one tensor element and a surviving
last spatial dimension, the stale `nDims` drops that dimension from the
compacted iteration, so neither Sum nor Mean ever writes the output
positions with last spatial coordinate greater than 0.  Over a 2×3
two-channel input collapsed along dimension 0, both pipelines write only
position `[0, 0]` of channel 0 — where the claimed identity holds:
Mean = 2 = 4 / 2 = Sum / count — and leave `[0, 1]` and `[0, 2]` holding
the freshly reforged buffer's contents (0 in this embedding, indeterminate
memory in the C++), although running channel 0's data through the
single-channel scan (third conjunct) shows the true per-position sums are
4, 12 and 20.  The program therefore never establishes the claimed
per-position identity at the unvisited positions. -/
theorem C9_mean_sum_unwritten_bug :
    (Sum (mkImg [2, 3] 2 [1, 2, 3, 4, 5, 6, 7, 8, 9, 10, 11, 12]) unforgedMask unforgedQ
        [true, false]).map
      (fun o => (o.sampleT 0 [0, 0], o.sampleT 0 [0, 1], o.sampleT 0 [0, 2]))
      = .ok (4, 0, 0)
    ∧ (Mean (mkImg [2, 3] 2 [1, 2, 3, 4, 5, 6, 7, 8, 9, 10, 11, 12]) unforgedMask unforgedQ
        [true, false]).map
      (fun o => (o.sampleT 0 [0, 0], o.sampleT 0 [0, 1], o.sampleT 0 [0, 2]))
      = .ok (2, 0, 0)
    ∧ (Sum (mkImg [2, 3] 1 [1, 3, 5, 7, 9, 11]) unforgedMask unforgedQ
        [true, false]).map
      (fun o => (o.sampleT 0 [0, 0], o.sampleT 0 [0, 1], o.sampleT 0 [0, 2]))
      = .ok (4, 12, 20) := by
  refine ⟨?_, ?_, ?_⟩
  · norm_num [Sum, ProjectionScan, mkImg, unforgedQ, unforgedMask, checkIsMask,
      expandSingletonDimensions, expandStrides, effProcess, outSizesOf, procSizesOf, reforge,
      Image.tensorToSpatial0, Image.squeeze, squeeze2, cmpStr, scanLoop, advance,
      ProjectionMean, maskedSamples, Image.sampleList, Image.sampleT, Image.numberOfPixels,
      allPositions, dotI, stdStrides, List.range_succ, Except.map, Int.toNat_ofNat,
      Int.toNat_natCast, default, instInhabitedRat]
    norm_num [Int.toNat]
  · norm_num [Mean, ProjectionScan, mkImg, unforgedQ, unforgedMask, checkIsMask,
      expandSingletonDimensions, expandStrides, effProcess, outSizesOf, procSizesOf, reforge,
      Image.tensorToSpatial0, Image.squeeze, squeeze2, cmpStr, scanLoop, advance,
      ProjectionMean, maskedSamples, Image.sampleList, Image.sampleT, Image.numberOfPixels,
      allPositions, dotI, stdStrides, List.range_succ, Except.map, Int.toNat_ofNat,
      Int.toNat_natCast, default, instInhabitedRat]
    norm_num [Int.toNat]
  · norm_num [Sum, ProjectionScan, mkImg, unforgedQ, unforgedMask, checkIsMask,
      expandSingletonDimensions, expandStrides, effProcess, outSizesOf, procSizesOf, reforge,
      Image.tensorToSpatial0, Image.squeeze, squeeze2, cmpStr, scanLoop, advance,
      ProjectionMean, maskedSamples, Image.sampleList, Image.sampleT, Image.numberOfPixels,
      allPositions, dotI, stdStrides, List.range_succ, Except.map, Int.toNat_ofNat,
      Int.toNat_natCast, default, instInhabitedRat]
    norm_num [Int.toNat]

/-- The input of the directional counterexample: two pixels, both angle 0. -/
noncomputable def angleImg2 : Image ℝ :=
  { sizes := [2], strides := [1], tensor := 1, tstride := 1, origin := 0,
    data := fun _ => 0, forged := true }

/-- **C2 (code bug).** For a set of two identical angles 0 the directional
Variance reducer writes `1 - |Σ unit vectors| = 1 - 2 = -1`, not the claimed
`1 - |Σ|/n = 0`: `ProjectionVarianceDirectional` takes
`R = std::abs( sum )` without dividing by the count `n`, which it
accumulates but never uses. -/
theorem C2_directional_variance_bug :
    ProjectionVarianceDirectional false angleImg2 unforgedMask = -1 := by
  have h1 : AngleToVector 0 = 1 := by
    apply Complex.ext <;> simp [AngleToVector]
  have hsl : angleImg2.sampleList = [0, 0] := by
    simp [Image.sampleList, angleImg2, allPositions, List.range_succ, dotI]
  simp only [ProjectionVarianceDirectional, unforgedMask, Bool.false_eq_true, if_false,
    hsl, List.map_cons, List.map_nil, h1, List.sum_cons, List.sum_nil]
  norm_num [Complex.abs_two]
